import Mathlib

/-!
Verification of the track-selection and match-filtering core of a satellite
bundle-adjustment pipeline: a shallow embedding of `feature_tracks/ft_ranking.py`
and `feature_tracks/ft_sat.py`, with theorems about the connectivity-matrix
builder (`build_connectivity_matrix`), the reprojection-error table
(`reprojection_error_from_C`), camera weighting (`compute_camera_weights`),
track ranking (`order_tracks`), greedy budgeted track selection
(`select_best_tracks`) and the UTM-consistency match filter
(`filter_pairwise_matches_inconsistent_utm_coords`).

Embedding conventions:
* numpy's NaN missing-data sentinel becomes `Option ℚ` (`none` = NaN); float
  arithmetic is embedded as exact rational arithmetic.
* `np.exp`, the square root inside `np.std`, and the Euclidean norm of
  `np.linalg.norm` are transcendental, so they are abstracted as function
  parameters (`expf`, `sqrtf`, `normf`); each theorem assumes only the
  properties of those functions that it needs (e.g. positivity of `expf`,
  and `np.exp 0 = 1` exactly in IEEE arithmetic).
* a Python function that raises an exception on some input is embedded as a
  function into `Option`, with `none` marking the raised exception.
-/

namespace SatBA

/-- The correspondence matrix `C`: `nrows` = 2 × (number of cameras) rows (row
`2*i` holds the first pixel coordinate of camera `i`'s observations, row
`2*i+1` the second) by `ncols` track columns.  An absent observation is the
NaN sentinel, embedded as `none`. -/
structure CMat where
  nrows : ℕ
  ncols : ℕ
  entry : ℕ → ℕ → Option ℚ

/-- `n_cam = int(C.shape[0]/2)` (ft_ranking.py line 11). -/
def nCam (C : CMat) : ℕ := C.nrows / 2

/-- Camera `i` observes track `t`: `not np.isnan(C[2*i, t])`. -/
def obs (C : CMat) (i t : ℕ) : Bool := (C.entry (2 * i) t).isSome

/-- `n_matches` for a camera pair (ft_ranking.py lines 15–17): the number of
track columns where both rows `2*im1` and `2*im2` are non-NaN
(`np.sum(np.sum(np.vstack((obs_im1, obs_im2)), axis=0) == 2)`). -/
def n_matches (C : CMat) (i j : ℕ) : ℕ :=
  (List.range C.ncols).countP (fun t => obs C i t && obs C j t)

/-- The ordered list of camera pairs `(im1, im2)`, `im1 < im2 < n_cam`,
visited by the double loop of `build_connectivity_matrix`
(`for im1 in range(n_cam): for im2 in range(im1+1, n_cam)`). -/
def camPairs (n : ℕ) : List (ℕ × ℕ) :=
  (List.range n).flatMap (fun i => ((List.range n).filter (fun j => i < j)).map (fun j => (i, j)))

/-- One write step of `build_connectivity_matrix`: `A[im1,im2] = n_matches;
A[im2,im1] = n_matches` (ft_ranking.py lines 20–21). -/
def writeSym (C : CMat) (A : ℕ → ℕ → ℕ) (p : ℕ × ℕ) : ℕ → ℕ → ℕ :=
  fun a b => if (a = p.1 ∧ b = p.2) ∨ (a = p.2 ∧ b = p.1) then n_matches C p.1 p.2 else A a b

/-- `build_connectivity_matrix` (ft_ranking.py lines 4–23): starting from
`np.zeros((n_cam, n_cam))`, for every unordered camera pair write the number
of jointly observed tracks at both symmetric positions.  The matrix is
represented as a total function; positions never written stay `0`. -/
def build_connectivity_matrix (C : CMat) : ℕ → ℕ → ℕ :=
  (camPairs (nCam C)).foldl (writeSym C) (fun _ _ => 0)

lemma mem_camPairs {n i j : ℕ} : (i, j) ∈ camPairs n ↔ i < j ∧ j < n := by
  simp only [camPairs, List.mem_flatMap, List.mem_map, List.mem_filter, List.mem_range]
  constructor
  · rintro ⟨a, ha, b, ⟨hb, hab⟩, heq⟩
    simp only [Prod.mk.injEq] at heq
    simp only [decide_eq_true_eq] at hab
    omega
  · rintro ⟨hij, hjn⟩
    exact ⟨i, by omega, j, ⟨by omega, by simpa using hij⟩, rfl⟩

lemma camPairs_lt {n : ℕ} {p : ℕ × ℕ} (hp : p ∈ camPairs n) : p.1 < p.2 ∧ p.2 < n := by
  obtain ⟨a, b⟩ := p
  exact mem_camPairs.mp hp

/-- Folding the symmetric writes preserves symmetry of the accumulator. -/
lemma foldl_writeSym_symm (C : CMat) (L : List (ℕ × ℕ)) (A : ℕ → ℕ → ℕ)
    (hA : ∀ a b, A a b = A b a) :
    ∀ a b, (L.foldl (writeSym C) A) a b = (L.foldl (writeSym C) A) b a := by
  induction L generalizing A with
  | nil => exact hA
  | cons p L ih =>
    refine ih _ (fun a b => ?_)
    simp only [writeSym]
    by_cases h1 : (a = p.1 ∧ b = p.2) ∨ (a = p.2 ∧ b = p.1)
    · have h2 : (b = p.1 ∧ a = p.2) ∨ (b = p.2 ∧ a = p.1) := by tauto
      rw [if_pos h1, if_pos h2]
    · have h2 : ¬ ((b = p.1 ∧ a = p.2) ∨ (b = p.2 ∧ a = p.1)) := by tauto
      rw [if_neg h1, if_neg h2, hA]

/-- Folding writes over strictly increasing pairs never touches the diagonal. -/
lemma foldl_writeSym_diag (C : CMat) (L : List (ℕ × ℕ)) (A : ℕ → ℕ → ℕ)
    (hL : ∀ p ∈ L, p.1 < p.2) :
    ∀ a, (L.foldl (writeSym C) A) a a = A a a := by
  induction L generalizing A with
  | nil => intro a; rfl
  | cons p L ih =>
    intro a
    have hp := hL p (List.mem_cons_self ..)
    rw [List.foldl_cons, ih _ (fun q hq => hL q (List.mem_cons_of_mem _ hq))]
    simp only [writeSym]
    rw [if_neg]
    rintro (⟨h1, h2⟩ | ⟨h1, h2⟩) <;> omega

/-- A position `(i, j)` with `i < j` holds `n_matches C i j` once `(i, j)` has
been written, and keeps the accumulator value if it is never written. -/
lemma foldl_writeSym_value (C : CMat) (L : List (ℕ × ℕ)) (A : ℕ → ℕ → ℕ)
    {i j : ℕ} (hij : i < j) (hL : ∀ p ∈ L, p.1 < p.2) :
    ((i, j) ∈ L → (L.foldl (writeSym C) A) i j = n_matches C i j) ∧
    ((i, j) ∉ L → (L.foldl (writeSym C) A) i j = A i j) := by
  induction L generalizing A with
  | nil => exact ⟨fun h => by simp at h, fun _ => rfl⟩
  | cons p L ih =>
    have hL' : ∀ q ∈ L, q.1 < q.2 := fun q hq => hL q (List.mem_cons_of_mem _ hq)
    have hp := hL p (List.mem_cons_self ..)
    constructor
    · intro hmem
      rcases List.mem_cons.mp hmem with heq | hmem'
      · by_cases hL2 : (i, j) ∈ L
        · exact (ih _ hL').1 hL2
        · rw [List.foldl_cons, (ih _ hL').2 hL2]
          simp [writeSym, ← heq]
      · exact (ih _ hL').1 hmem'
    · intro hmem
      have hne : p ≠ (i, j) := fun h => hmem (h ▸ List.mem_cons_self ..)
      have hL2 : (i, j) ∉ L := fun h => hmem (List.mem_cons_of_mem _ h)
      rw [List.foldl_cons, (ih _ hL').2 hL2]
      simp only [writeSym]
      rw [if_neg]
      rintro (⟨h1, h2⟩ | ⟨h1, h2⟩)
      · exact hne (by simp [Prod.ext_iff, h1.symm, h2.symm])
      · omega

lemma build_eq_of_mem {C : CMat} {i j : ℕ} (hij : i < j)
    (hmem : (i, j) ∈ camPairs (nCam C)) :
    build_connectivity_matrix C i j = n_matches C i j := by
  unfold build_connectivity_matrix
  exact (foldl_writeSym_value C _ _ hij (fun p hp => (camPairs_lt hp).1)).1 hmem

lemma build_eq_zero_of_not_mem {C : CMat} {i j : ℕ} (hij : i < j)
    (hmem : (i, j) ∉ camPairs (nCam C)) :
    build_connectivity_matrix C i j = 0 := by
  unfold build_connectivity_matrix
  exact (foldl_writeSym_value C _ _ hij (fun p hp => (camPairs_lt hp).1)).2 hmem

lemma build_diag (C : CMat) (a : ℕ) : build_connectivity_matrix C a a = 0 := by
  unfold build_connectivity_matrix
  exact foldl_writeSym_diag C _ _ (fun p hp => (camPairs_lt hp).1) a

/-- C5: for a well-formed `C` (an even number of rows, `2 * n`), the
connectivity matrix is symmetric with a zero diagonal; every off-diagonal
in-range entry `A[i][j]` equals the exact number of track columns observed by
both camera `i` and camera `j`, and every out-of-range entry is `0` (the
matrix is square of size `n_cam = n`). -/
theorem build_connectivity_matrix_spec (C : CMat) (n : ℕ) (h : C.nrows = 2 * n) :
    (∀ a b, build_connectivity_matrix C a b = build_connectivity_matrix C b a) ∧
    (∀ a, build_connectivity_matrix C a a = 0) ∧
    (∀ i j, i < n → j < n → i ≠ j →
      build_connectivity_matrix C i j =
        (List.range C.ncols).countP (fun t => obs C i t && obs C j t)) ∧
    (∀ i j, n ≤ i ∨ n ≤ j → build_connectivity_matrix C i j = 0) := by
  have hn : nCam C = n := by simp [nCam, h]
  have hsymm : ∀ a b, build_connectivity_matrix C a b = build_connectivity_matrix C b a := by
    unfold build_connectivity_matrix
    exact foldl_writeSym_symm C _ _ (fun _ _ => rfl)
  refine ⟨hsymm, build_diag C, ?_, ?_⟩
  · intro i j hi hj hne
    rcases lt_or_gt_of_ne hne with hlt | hgt
    · have hmem : (i, j) ∈ camPairs (nCam C) := mem_camPairs.mpr ⟨hlt, by omega⟩
      exact build_eq_of_mem hlt hmem
    · have hmem : (j, i) ∈ camPairs (nCam C) := mem_camPairs.mpr ⟨hgt, by omega⟩
      rw [hsymm i j, build_eq_of_mem hgt hmem]
      unfold n_matches
      congr 1
      funext t
      rw [Bool.and_comm]
  · intro i j hout
    rcases le_or_lt j i with hle | hlt
    · rcases eq_or_lt_of_le hle with heq | hgt
      · rw [heq, build_diag]
      · have hmem : (j, i) ∉ camPairs (nCam C) := by
          intro hmem
          have := (mem_camPairs.mp hmem)
          omega
        rw [hsymm i j, build_eq_zero_of_not_mem hgt hmem]
    · have hmem : (i, j) ∉ camPairs (nCam C) := by
        intro hmem
        have := (mem_camPairs.mp hmem)
        omega
      exact build_eq_zero_of_not_mem hlt hmem

/-- A concrete correspondence matrix: 3 cameras (6 rows), 4 tracks; track 0 is
seen by all three cameras, tracks 1–3 by camera 0 together with one other
camera. -/
def Cex3 : CMat where
  nrows := 6
  ncols := 4
  entry := fun r c =>
    if r < 6 ∧ c < 4 ∧
        (c = 0 ∨ (c = 1 ∧ r / 2 ≠ 2) ∨ (c = 2 ∧ r / 2 ≠ 1) ∨ (c = 3 ∧ r / 2 ≠ 1))
    then some 1 else none

theorem build_connectivity_matrix_spec_witness :
    Cex3.nrows = 2 * 3 ∧
    build_connectivity_matrix Cex3 0 1 =
      (List.range Cex3.ncols).countP (fun t => obs Cex3 0 t && obs Cex3 1 t) :=
  ⟨rfl, (build_connectivity_matrix_spec Cex3 3 rfl).2.2.1 0 1 (by decide) (by decide) (by decide)⟩

/-- Modelled from the spec: the observation index arrays `cam_ind` / `pts_ind`
produced by `ba_core.set_ba_params` (in `bundle_adjust/ba_core.py`, which is
not under src/) "bind each 2-D observation to its camera and point", i.e. they
enumerate exactly the (camera, track) positions where `C` has an observation
(`reduce=False` keeps them all).  The enumeration order chosen here is
camera-major; the order is irrelevant to the filled table. -/
def ba_obs_indices (C : CMat) : List (ℕ × ℕ) :=
  (List.range (nCam C)).flatMap
    (fun i => ((List.range C.ncols).filter (fun t => obs C i t)).map (fun t => (i, t)))

lemma mem_ba_obs_indices {C : CMat} {i t : ℕ} :
    (i, t) ∈ ba_obs_indices C ↔ i < nCam C ∧ t < C.ncols ∧ obs C i t = true := by
  simp only [ba_obs_indices, List.mem_flatMap, List.mem_map, List.mem_filter, List.mem_range]
  constructor
  · rintro ⟨a, ha, b, ⟨hb, hobs⟩, heq⟩
    simp only [Prod.mk.injEq] at heq
    obtain ⟨rfl, rfl⟩ := heq
    exact ⟨ha, hb, hobs⟩
  · rintro ⟨hi, ht, hobs⟩
    exact ⟨i, hi, t, ⟨ht, hobs⟩, rfl⟩

/-- One write of the loop at ft_ranking.py lines 49–51:
`C_reproj[cam_where_obs, track_where_obs] = reproj_err_per_obs[i]`, where the
per-observation reprojection errors (computed by the external camera model via
`ba_core.fun` / `ba_core.get_ba_error`, not under src/) are abstracted as the
function `errf` of the observation's (camera, track) position. -/
def writeObs (errf : ℕ → ℕ → ℚ) (R : ℕ → ℕ → Option ℚ) (p : ℕ × ℕ) : ℕ → ℕ → Option ℚ :=
  fun a b => if a = p.1 ∧ b = p.2 then some (errf p.1 p.2) else R a b

/-- `reprojection_error_from_C` (ft_ranking.py lines 26–53): a camera × track
table, initialized to all-NaN (`C_reproj[:] = np.nan`, embedded as the
constant-`none` function), then filled with the per-observation reprojection
error at each observation position. -/
def reprojection_error_from_C (C : CMat) (errf : ℕ → ℕ → ℚ) : ℕ → ℕ → Option ℚ :=
  (ba_obs_indices C).foldl (writeObs errf) (fun _ _ => none)

lemma foldl_writeObs (errf : ℕ → ℕ → ℚ) (L : List (ℕ × ℕ)) (R : ℕ → ℕ → Option ℚ)
    (a b : ℕ) :
    (L.foldl (writeObs errf) R) a b =
      if (a, b) ∈ L then some (errf a b) else R a b := by
  induction L generalizing R with
  | nil => simp
  | cons p L ih =>
    rw [List.foldl_cons, ih]
    by_cases hmem : (a, b) ∈ L
    · rw [if_pos hmem, if_pos (List.mem_cons_of_mem _ hmem)]
    · rw [if_neg hmem]
      by_cases heq : (a, b) = p
      · rw [if_pos (heq ▸ List.mem_cons_self ..)]
        simp only [writeObs, ← heq]
        simp
      · rw [if_neg (by simp only [List.mem_cons]; tauto)]
        simp only [writeObs]
        rw [if_neg]
        rintro ⟨h1, h2⟩
        exact heq (by simp [Prod.ext_iff, h1, h2])

lemma reprojection_error_eq (C : CMat) (errf : ℕ → ℕ → ℚ) (i t : ℕ) :
    reprojection_error_from_C C errf i t =
      if i < nCam C ∧ t < C.ncols ∧ obs C i t = true then some (errf i t) else none := by
  unfold reprojection_error_from_C
  rw [foldl_writeObs]
  by_cases hmem : (i, t) ∈ ba_obs_indices C
  · rw [if_pos hmem, if_pos (mem_ba_obs_indices.mp hmem)]
  · rw [if_neg hmem, if_neg (fun h => hmem (mem_ba_obs_indices.mpr h))]

/-- C4: the reprojection-error table has the camera × track shape of `C` and
is defined (with the per-observation error) exactly at the positions where `C`
has an observation, `none` (NaN) everywhere else — including everywhere
outside the `n_cam × n_tracks` range. -/
theorem reprojection_error_from_C_spec (C : CMat) (errf : ℕ → ℕ → ℚ) (i t : ℕ) :
    reprojection_error_from_C C errf i t =
      if i < nCam C ∧ t < C.ncols ∧ obs C i t = true then some (errf i t) else none :=
  reprojection_error_eq C errf i t

/-- `np.nanmean(R[:, t], axis=0)` over `nrows` rows: the mean of the defined
entries of column `t`; NaN (`none`) when no entry is defined (numpy emits a
warning and yields NaN for an all-NaN column, and `np.mean` of an empty array
is NaN). -/
def np_nanmean_col (nrows : ℕ) (R : ℕ → ℕ → Option ℚ) (t : ℕ) : Option ℚ :=
  if ((List.range nrows).filterMap (fun i => R i t)).length = 0 then none
  else some (((List.range nrows).filterMap (fun i => R i t)).sum /
    ((List.range nrows).filterMap (fun i => R i t)).length)

/-- `tracks_len` (ft_ranking.py line 98): `(np.sum(~np.isnan(C), axis=0)/2).astype(int)`,
the number of non-NaN rows of column `t` divided by 2. -/
def trackLen (C : CMat) (t : ℕ) : ℕ :=
  ((List.range C.nrows).countP (fun r => (C.entry r t).isSome)) / 2

/-- `tracks_cost` (ft_ranking.py line 96): `np.nanmean(C_reproj, axis=0)`. -/
def trackCost (C : CMat) (errf : ℕ → ℕ → ℚ) (t : ℕ) : Option ℚ :=
  np_nanmean_col (nCam C) (reprojection_error_from_C C errf) t

/-- Comparison of the cost key under the ordering realized by
`np.argsort(..., order=['length','cost'])[::-1]` at equal length: the array is
sorted ascending by `-cost` with NaN sorting last, then reversed, so within a
length class a NaN-cost track comes first and otherwise smaller cost comes
first. -/
def costBetter : Option ℚ → Option ℚ → Bool
  | none, some _ => true
  | some a, some b => decide (a < b)
  | _, _ => false

/-- Strict priority order between track columns realized by
ft_ranking.py lines 105–108: primary key track length descending, secondary
key cost ascending (NaN cost first).  `np.argsort`'s order among fully tied
keys is implementation-defined (quicksort); the embedding fixes the
index-ascending tie-break. -/
def trackBetter (C : CMat) (errf : ℕ → ℕ → ℚ) (t u : ℕ) : Bool :=
  decide (trackLen C u < trackLen C t) ||
    (decide (trackLen C t = trackLen C u) &&
      (costBetter (trackCost C errf t) (trackCost C errf u) ||
        (decide (trackCost C errf t = trackCost C errf u) && decide (t < u))))

/-- `ranked_track_indices`: the dict built at ft_ranking.py lines 107–108 maps
each track index to its position in the sorted order, i.e. to the number of
tracks placed strictly before it. -/
def ranked_track_indices (C : CMat) (errf : ℕ → ℕ → ℚ) : ℕ → ℕ :=
  fun t => (List.range C.ncols).countP (fun u => trackBetter C errf u t)

/-- `order_tracks` (ft_ranking.py lines 92–115): returns the rank mapping and
the reprojection-error table. -/
def order_tracks (C : CMat) (errf : ℕ → ℕ → ℚ) : (ℕ → ℕ) × (ℕ → ℕ → Option ℚ) :=
  (ranked_track_indices C errf, reprojection_error_from_C C errf)

lemma costBetter_self (x : Option ℚ) : costBetter x x = false := by
  cases x <;> simp [costBetter]

lemma trackBetter_irrefl (C : CMat) (errf : ℕ → ℕ → ℚ) (t : ℕ) :
    trackBetter C errf t t = false := by
  simp [trackBetter, costBetter_self]

lemma trackBetter_total (C : CMat) (errf : ℕ → ℕ → ℚ) {t u : ℕ} (h : t ≠ u) :
    trackBetter C errf t u = true ∨ trackBetter C errf u t = true := by
  simp only [trackBetter, Bool.or_eq_true, Bool.and_eq_true, decide_eq_true_eq]
  rcases lt_trichotomy (trackLen C t) (trackLen C u) with hl | hl | hl
  · exact Or.inr (Or.inl hl)
  · rcases hct : trackCost C errf t with _ | a <;> rcases hcu : trackCost C errf u with _ | b
    · rcases Nat.lt_or_ge t u with htu | htu
      · exact Or.inl (Or.inr ⟨hl, Or.inr ⟨rfl, htu⟩⟩)
      · exact Or.inr (Or.inr ⟨hl.symm, Or.inr ⟨rfl, by omega⟩⟩)
    · exact Or.inl (Or.inr ⟨hl, Or.inl (by simp [costBetter])⟩)
    · exact Or.inr (Or.inr ⟨hl.symm, Or.inl (by simp [costBetter])⟩)
    · rcases lt_trichotomy a b with hab | hab | hab
      · exact Or.inl (Or.inr ⟨hl, Or.inl (by simp [costBetter, hab])⟩)
      · rcases Nat.lt_or_ge t u with htu | htu
        · exact Or.inl (Or.inr ⟨hl, Or.inr ⟨by rw [hab], htu⟩⟩)
        · exact Or.inr (Or.inr ⟨hl.symm, Or.inr ⟨by rw [hab], by omega⟩⟩)
      · exact Or.inr (Or.inr ⟨hl.symm, Or.inl (by simp [costBetter, hab])⟩)
  · exact Or.inl (Or.inl hl)

lemma costBetter_trans {a b c : Option ℚ} (h1 : costBetter a b = true)
    (h2 : costBetter b c = true) : costBetter a c = true := by
  rcases a with _ | a <;> rcases b with _ | b <;> rcases c with _ | c <;>
    simp_all [costBetter]
  exact lt_trans h1 h2

lemma trackBetter_trans (C : CMat) (errf : ℕ → ℕ → ℚ) {t u v : ℕ}
    (h1 : trackBetter C errf t u = true) (h2 : trackBetter C errf u v = true) :
    trackBetter C errf t v = true := by
  simp only [trackBetter, Bool.or_eq_true, Bool.and_eq_true, decide_eq_true_eq] at h1 h2 ⊢
  rcases h1 with h1 | ⟨h1len, h1c⟩
  · rcases h2 with h2 | ⟨h2len, _⟩
    · exact Or.inl (lt_trans h2 h1)
    · exact Or.inl (h2len ▸ h1)
  · rcases h2 with h2 | ⟨h2len, h2c⟩
    · exact Or.inl (by omega)
    · refine Or.inr ⟨by omega, ?_⟩
      rcases h1c with h1c | ⟨h1eq, h1lt⟩
      · rcases h2c with h2c | ⟨h2eq, _⟩
        · exact Or.inl (costBetter_trans h1c h2c)
        · exact Or.inl (h2eq ▸ h1c)
      · rcases h2c with h2c | ⟨h2eq, h2lt⟩
        · exact Or.inl (h1eq ▸ h2c)
        · exact Or.inr ⟨h1eq.trans h2eq, by omega⟩

lemma countP_lt {α : Type} (l : List α) (p q : α → Bool)
    (hpq : ∀ a ∈ l, p a = true → q a = true)
    (x : α) (hx : x ∈ l) (hpx : p x = false) (hqx : q x = true) :
    l.countP p < l.countP q := by
  induction l with
  | nil => simp at hx
  | cons a l ih =>
    rw [List.countP_cons, List.countP_cons]
    have hmono : l.countP p ≤ l.countP q :=
      List.countP_mono_left (fun b hb => hpq b (List.mem_cons_of_mem _ hb))
    rcases List.mem_cons.mp hx with rfl | hx'
    · rw [hpx, hqx]
      norm_num
      omega
    · have hlt := ih (fun b hb => hpq b (List.mem_cons_of_mem _ hb)) hx'
      have : (if p a = true then 1 else 0) ≤ (if q a = true then 1 else 0) := by
        by_cases hpa : p a = true
        · rw [if_pos hpa, if_pos (hpq a (List.mem_cons_self ..) hpa)]
        · simp [hpa]
      omega

lemma rank_lt_rank (C : CMat) (errf : ℕ → ℕ → ℚ) {t u : ℕ} (ht : t < C.ncols)
    (hB : trackBetter C errf t u = true) :
    ranked_track_indices C errf t < ranked_track_indices C errf u := by
  refine countP_lt _ _ _ ?_ t (List.mem_range.mpr ht) (trackBetter_irrefl C errf t) hB
  intro v _ hv
  exact trackBetter_trans C errf hv hB

lemma rank_lt_ncols (C : CMat) (errf : ℕ → ℕ → ℚ) {t : ℕ} (ht : t < C.ncols) :
    ranked_track_indices C errf t < C.ncols := by
  have h := countP_lt (List.range C.ncols) (fun u => trackBetter C errf u t)
    (fun _ => true) (fun _ _ _ => rfl) t (List.mem_range.mpr ht)
    (trackBetter_irrefl C errf t) rfl
  simpa using h

lemma rank_injOn (C : CMat) (errf : ℕ → ℕ → ℚ) {t u : ℕ} (ht : t < C.ncols)
    (hu : u < C.ncols) (hne : t ≠ u) :
    ranked_track_indices C errf t ≠ ranked_track_indices C errf u := by
  rcases trackBetter_total C errf hne with hB | hB
  · exact Nat.ne_of_lt (rank_lt_rank C errf ht hB)
  · exact (Nat.ne_of_lt (rank_lt_rank C errf hu hB)).symm

/-- C6: `order_tracks` produces a bijection from track indices onto rank
positions `{0, …, n_tracks − 1}` (a strict total order), consistent with
track length descending as primary key and cost ascending as secondary key:
a strictly longer track always gets a strictly smaller (better) rank, and at
equal length a strictly smaller defined cost gets a smaller rank. -/
theorem order_tracks_spec (C : CMat) (errf : ℕ → ℕ → ℚ) :
    (∀ t, t < C.ncols → ranked_track_indices C errf t < C.ncols) ∧
    (∀ t u, t < C.ncols → u < C.ncols → t ≠ u →
      ranked_track_indices C errf t ≠ ranked_track_indices C errf u) ∧
    (∀ r, r < C.ncols → ∃ t, t < C.ncols ∧ ranked_track_indices C errf t = r) ∧
    (∀ t u, t < C.ncols → u < C.ncols → trackLen C u < trackLen C t →
      ranked_track_indices C errf t < ranked_track_indices C errf u) ∧
    (∀ t u ct cu, t < C.ncols → u < C.ncols → trackLen C t = trackLen C u →
      trackCost C errf t = some ct → trackCost C errf u = some cu → ct < cu →
      ranked_track_indices C errf t < ranked_track_indices C errf u) := by
  refine ⟨fun t ht => rank_lt_ncols C errf ht,
          fun t u ht hu hne => rank_injOn C errf ht hu hne, ?_, ?_, ?_⟩
  · intro r hr
    have hsub : (Finset.range C.ncols).image (ranked_track_indices C errf) ⊆
        Finset.range C.ncols := by
      intro x hx
      rcases Finset.mem_image.mp hx with ⟨t, ht, rfl⟩
      exact Finset.mem_range.mpr (rank_lt_ncols C errf (Finset.mem_range.mp ht))
    have hcard : (Finset.range C.ncols).card ≤
        ((Finset.range C.ncols).image (ranked_track_indices C errf)).card := by
      rw [Finset.card_image_of_injOn]
      intro a ha b hb hab
      by_contra hne
      exact rank_injOn C errf (Finset.mem_range.mp ha) (Finset.mem_range.mp hb) hne hab
    have heq := Finset.eq_of_subset_of_card_le hsub hcard
    have : r ∈ (Finset.range C.ncols).image (ranked_track_indices C errf) := by
      rw [heq]
      exact Finset.mem_range.mpr hr
    rcases Finset.mem_image.mp this with ⟨t, ht, hrt⟩
    exact ⟨t, Finset.mem_range.mp ht, hrt⟩
  · intro t u ht hu hlen
    refine rank_lt_rank C errf ht ?_
    simp [trackBetter, hlen]
  · intro t u ct cu ht hu hlen hct hcu hcost
    refine rank_lt_rank C errf ht ?_
    simp [trackBetter, hlen, hct, hcu, costBetter, hcost]

/-- A concrete matrix with 2 cameras and 2 tracks: track 0 has length 2,
track 1 has length 1. -/
def Cex2 : CMat where
  nrows := 4
  ncols := 2
  entry := fun r c =>
    if r < 4 ∧ (c = 0 ∨ (c = 1 ∧ r / 2 = 0)) then some 1 else none

/-- The all-zero stand-in for the per-observation reprojection errors. -/
def errf0 : ℕ → ℕ → ℚ := fun _ _ => 0

theorem order_tracks_spec_witness :
    trackLen Cex2 1 < trackLen Cex2 0 ∧
    ranked_track_indices Cex2 errf0 0 < ranked_track_indices Cex2 errf0 1 :=
  ⟨by decide, (order_tracks_spec Cex2 errf0).2.2.2.1 0 1 (by decide) (by decide) (by decide)⟩

/-- Sequence a list of optional values: `none` as soon as one entry is `none`
(a NaN in a numpy array poisons `np.mean` and `np.std` of that array). -/
def allSome : List (Option ℚ) → Option (List ℚ)
  | [] => some []
  | none :: _ => none
  | some a :: l => (allSome l).map (a :: ·)

/-- `np.mean`: NaN on an empty array. -/
def np_mean (l : List ℚ) : Option ℚ :=
  if l.length = 0 then none else some (l.sum / l.length)

/-- The population variance computed inside `np.std`; NaN on an empty array. -/
def np_var (l : List ℚ) : Option ℚ :=
  match np_mean l with
  | none => none
  | some m => some ((l.map (fun x => (x - m) ^ 2)).sum / l.length)

/-- `indices_of_tracks_seen_in_current_cam` (ft_ranking.py line 71). -/
def camTracks (C : CMat) (i : ℕ) : List ℕ :=
  (List.range C.ncols).filter (fun t => obs C i t)

/-- `nC_i = np.sum(A[i, :] > 0)` (ft_ranking.py line 68): the connectivity
degree of camera `i`. -/
def camDegree (C : CMat) (A : ℕ → ℕ → ℕ) (i : ℕ) : ℕ :=
  (List.range (nCam C)).countP (fun j => decide (0 < A i j))

/-- `costC_i` for a connected camera (ft_ranking.py lines 79–83): the mean
plus three standard deviations of the per-track average reprojection errors
of the tracks seen by camera `i`.  `np.std` takes a square root, which is
irrational in general; it is abstracted as the parameter `sqrtf` applied to
the (rational) population variance. -/
def camCost (sqrtf : ℚ → ℚ) (C : CMat) (R : ℕ → ℕ → Option ℚ) (i : ℕ) : Option ℚ :=
  match allSome ((camTracks C i).map (np_nanmean_col (nCam C) R)) with
  | none => none
  | some avgs =>
    match np_mean avgs, np_var avgs with
    | some m, some v => some (m + 3 * sqrtf v)
    | _, _ => none

/-- One entry of `w_cam` (ft_ranking.py lines 66–87):
`w_cam.append(nC_i + np.exp(-costC_i))` with `costC_i = 0` when the degree is
zero.  `np.exp` is abstracted as the parameter `expf` (note `np.exp 0 = 1`
exactly in IEEE arithmetic); a NaN cost makes the weight NaN (`none`). -/
def camWeight (expf sqrtf : ℚ → ℚ) (C : CMat) (R : ℕ → ℕ → Option ℚ)
    (A : ℕ → ℕ → ℕ) (i : ℕ) : Option ℚ :=
  Option.map (fun c => (camDegree C A i : ℚ) + expf (-c))
    (if 0 < camDegree C A i then camCost sqrtf C R i else some 0)

/-- `compute_camera_weights` (ft_ranking.py lines 56–89) with the connectivity
matrix supplied by the caller. -/
def compute_camera_weights (expf sqrtf : ℚ → ℚ) (C : CMat) (R : ℕ → ℕ → Option ℚ)
    (A : ℕ → ℕ → ℕ) : List (Option ℚ) :=
  (List.range (nCam C)).map (camWeight expf sqrtf C R A)

/-- `compute_camera_weights` with `connectivity_matrix=None`: the matrix is
built from `C` (ft_ranking.py lines 60–61). -/
def compute_camera_weights_default (expf sqrtf : ℚ → ℚ) (C : CMat)
    (R : ℕ → ℕ → Option ℚ) : List (Option ℚ) :=
  compute_camera_weights expf sqrtf C R (build_connectivity_matrix C)

/-- A 1-camera matrix: its camera has connectivity degree 0. -/
def Cw0 : CMat where
  nrows := 2
  ncols := 1
  entry := fun r c => if r < 2 ∧ c = 0 then some 1 else none

/-- The stand-in for `np.exp` used at concrete inputs; it agrees with
`np.exp` at the only evaluated argument, `0` (`np.exp 0 = 1`). -/
def expf0 : ℚ → ℚ := fun _ => 1

/-- The stand-in for the square root inside `np.std` used at concrete inputs;
it agrees with the square root at the only evaluated argument, `0`. -/
def sqrtf0 : ℚ → ℚ := id

/-- C2 counterexample: for the 1-camera matrix `Cw0`, camera 0 has
connectivity degree 0 but its weight is `0 + np.exp(-0) = 1`, not `0`
(ft_ranking.py lines 84–87 set `costC_i = 0` and still add `np.exp(-costC_i)`). -/
theorem compute_camera_weights_zero_degree_counterexample :
    camDegree Cw0 (build_connectivity_matrix Cw0) 0 = 0 ∧
    compute_camera_weights_default expf0 sqrtf0 Cw0 (fun _ _ => none) = [some 1] ∧
    some (1 : ℚ) ≠ some (0 : ℚ) := by
  have hdeg : camDegree Cw0 (build_connectivity_matrix Cw0) 0 = 0 := by decide
  refine ⟨hdeg, ?_, by norm_num⟩
  unfold compute_camera_weights_default compute_camera_weights
  have hr : List.range (nCam Cw0) = [0] := by decide
  rw [hr]
  simp [camWeight, hdeg, expf0]

/-- C2 amended: every defined camera weight is nonnegative (indeed positive),
and a camera with connectivity degree 0 has weight exactly `np.exp 0 = 1`. -/
theorem compute_camera_weights_amended (expf sqrtf : ℚ → ℚ) (C : CMat)
    (R : ℕ → ℕ → Option ℚ) (A : ℕ → ℕ → ℕ)
    (hpos : ∀ x, 0 < expf x) (hone : expf 0 = 1) :
    (∀ w ∈ compute_camera_weights expf sqrtf C R A, ∀ q, w = some q → 0 ≤ q) ∧
    (∀ i, i < nCam C → camDegree C A i = 0 →
      (compute_camera_weights expf sqrtf C R A)[i]? = some (some 1)) := by
  constructor
  · intro w hw q hq
    rcases List.mem_map.mp hw with ⟨i, _, rfl⟩
    unfold camWeight at hq
    rcases hc : (if 0 < camDegree C A i then camCost sqrtf C R i else some 0) with _ | c
    · rw [hc] at hq
      simp at hq
    · rw [hc] at hq
      have hq' : (camDegree C A i : ℚ) + expf (-c) = q := by
        simpa using hq
      have h1 : (0 : ℚ) ≤ (camDegree C A i : ℚ) := Nat.cast_nonneg _
      have h2 : 0 < expf (-c) := hpos _
      linarith
  · intro i hi hdeg
    have hw : camWeight expf sqrtf C R A i = some 1 := by
      unfold camWeight
      rw [hdeg]
      norm_num [hone]
    rw [compute_camera_weights, List.getElem?_map, List.getElem?_range hi]
    simp [hw]

theorem compute_camera_weights_amended_witness :
    (∀ x : ℚ, 0 < expf0 x) ∧
    (compute_camera_weights expf0 sqrtf0 Cw0 (fun _ _ => none)
      (build_connectivity_matrix Cw0))[0]? = some (some 1) :=
  ⟨fun _ => one_pos,
   (compute_camera_weights_amended expf0 sqrtf0 Cw0 (fun _ _ => none)
      (build_connectivity_matrix Cw0) (fun _ => one_pos) rfl).2 0 (by decide) (by decide)⟩

/-- Stable insertion into a list sorted by ascending rank, used to embed
Python's `sorted(..., key=lambda idx: ranked_track_indices[idx])`
(ft_ranking.py line 125). -/
def insertByRank (rank : ℕ → ℕ) (t : ℕ) : List ℕ → List ℕ
  | [] => [t]
  | u :: us => if rank t ≤ rank u then t :: u :: us else u :: insertByRank rank t us

/-- Sort by ascending rank (stable, like Python's `sorted`). -/
def sortByRank (rank : ℕ → ℕ) (l : List ℕ) : List ℕ :=
  l.foldr (insertByRank rank) []

/-- `get_inverted_track_list` (ft_ranking.py lines 118–127): per camera, the
list of its observed track columns sorted by ascending global rank. -/
def get_inverted_track_list (C : CMat) (rank : ℕ → ℕ) : ℕ → List ℕ :=
  fun i => sortByRank rank ((List.range C.ncols).filter (fun t => obs C i t))

lemma mem_insertByRank {rank : ℕ → ℕ} {t x : ℕ} {l : List ℕ} :
    x ∈ insertByRank rank t l ↔ x = t ∨ x ∈ l := by
  induction l with
  | nil => simp [insertByRank]
  | cons u us ih =>
    unfold insertByRank
    by_cases h : rank t ≤ rank u
    · rw [if_pos h]
      simp
    · rw [if_neg h]
      simp only [List.mem_cons, ih]
      tauto

lemma mem_sortByRank {rank : ℕ → ℕ} {x : ℕ} {l : List ℕ} :
    x ∈ sortByRank rank l ↔ x ∈ l := by
  induction l with
  | nil => simp [sortByRank]
  | cons u us ih =>
    unfold sortByRank at ih ⊢
    rw [List.foldr_cons, mem_insertByRank, ih, List.mem_cons]

lemma mem_inverted {C : CMat} {rank : ℕ → ℕ} {c t : ℕ}
    (h : t ∈ get_inverted_track_list C rank c) :
    t < C.ncols ∧ obs C c t = true := by
  unfold get_inverted_track_list at h
  have := mem_sortByRank.mp h
  have h2 := List.mem_filter.mp this
  exact ⟨List.mem_range.mp h2.1, h2.2⟩

/-- `np.argmax` over a float list, scanning left to right: a NaN (`none`)
becomes the running maximum as soon as it is seen and is never replaced, so
the index of the first NaN is returned when one is present; otherwise the
index of the first occurrence of the maximum.  (numpy raises on an empty
array; the embedding returns 0 there.) -/
def np_argmax_go (idx bestIdx : ℕ) (bestVal : Option ℚ) : List (Option ℚ) → ℕ
  | [] => bestIdx
  | v :: rest =>
    match bestVal, v with
    | none, _ => np_argmax_go (idx + 1) bestIdx none rest
    | some b, none => np_argmax_go (idx + 1) idx none rest
    | some b, some x =>
      if b < x then np_argmax_go (idx + 1) idx (some x) rest
      else np_argmax_go (idx + 1) bestIdx (some b) rest

/-- `Croot = np.argmax(camera_weights)` (ft_ranking.py line 174). -/
def np_argmax : List (Option ℚ) → ℕ
  | [] => 0
  | v :: rest => np_argmax_go 1 0 v rest

/-- State of the per-round tree growth: `Sk` (tracks chosen this round),
`Ik` (cameras included, as the Python list with possible duplicates), and the
camera layer — during a layer it accumulates `nodes_next_layer_Hk`, and
between layers it holds `nodes_last_layer_Hk`. -/
structure TreeSt where
  Sk : List ℕ
  Ik : List ℕ
  last : List ℕ
deriving DecidableEq

/-- `Wq`: the cameras observing track `t` in the working matrix
(ft_ranking.py line 187), in ascending order. -/
def Wq (Cu : CMat) (t : ℕ) : List ℕ :=
  (List.range (nCam Cu)).filter (fun j => obs Cu j t)

/-- `Rq = np.arange(n_cam)[A[cam_idx, :] > 0]` (ft_ranking.py line 189). -/
def Rq (Cu : CMat) (A : ℕ → ℕ → ℕ) (c : ℕ) : List ℕ :=
  (List.range (nCam Cu)).filter (fun j => decide (0 < A c j))

/-- Processing of one candidate track of one frontier camera (ft_ranking.py
lines 185–194): `Zq = np.intersect1d(Wq, Rq)` is ascending and
duplicate-free; if `Zq` is non-empty and contains a camera outside `Ik`, the
track is appended to `Sk`, all of `Zq` is appended to `Ik`, and the new
cameras are queued on the next layer.  (`list(set(Zq) - set(...))` iterates a
Python set, whose order is implementation-defined; the embedding keeps the
ascending order of `Zq`.) -/
def procTrack (Cu : CMat) (A : ℕ → ℕ → ℕ) (c t : ℕ) (st : TreeSt) : TreeSt :=
  if t ∈ st.Sk then st
  else
    if 0 < ((Wq Cu t).filter (fun x => x ∈ Rq Cu A c)).length ∧
        (((Wq Cu t).filter (fun x => x ∈ Rq Cu A c)).filter (fun x => x ∈ st.Ik)).length <
          ((Wq Cu t).filter (fun x => x ∈ Rq Cu A c)).length then
      { Sk := st.Sk ++ [t],
        Ik := st.Ik ++ (Wq Cu t).filter (fun x => x ∈ Rq Cu A c),
        last := st.last ++ ((Wq Cu t).filter (fun x => x ∈ Rq Cu A c)).filter (fun x => x ∉ st.Ik) }
    else st

/-- One while-iteration of the tree growth (ft_ranking.py lines 182–194): all
frontier cameras are processed in order, each considering its ranked tracks
in order; the produced state's `last` field holds the next layer. -/
def treeLayer (Cu : CMat) (A : ℕ → ℕ → ℕ) (inv : ℕ → List ℕ) (st : TreeSt) : TreeSt :=
  st.last.foldl
    (fun s c => (inv c).foldl (fun s2 t => procTrack Cu A c t s2) s)
    { Sk := st.Sk, Ik := st.Ik, last := [] }

/-- The inner `while iterate_current_tree` loop (ft_ranking.py lines
180–199), fuel-indexed: after each layer the flag test
`len(list(set(Ik) - set(V))) == 0 or h == 0` decides whether to continue,
where `h` is the size of the layer just processed.  Exhausted fuel returns
the current state; the development proves one unit of fuel is always enough
because the first disjunct of the test is always true. -/
def growTreeAux (Cu : CMat) (A : ℕ → ℕ → ℕ) (inv : ℕ → List ℕ) (V : List ℕ) :
    ℕ → TreeSt → TreeSt
  | 0, st => st
  | fuel + 1, st =>
    if ((treeLayer Cu A inv st).Ik.filter (fun c => c ∉ V)).length = 0 ∨
        st.last.length = 0 then
      treeLayer Cu A inv st
    else growTreeAux Cu A inv V fuel (treeLayer Cu A inv st)

/-- State of the outer selection loop: the caller's matrix (never written —
line 151 of ft_ranking.py takes a copy), the working copy `updated_C`, the
remaining candidate pool `remaining_T`, and the accumulated selection `S`. -/
structure SelSt where
  callerC : CMat
  updC : CMat
  remaining : List ℕ
  S : List ℕ

/-- `updated_C[:, idx] = np.nan` for every `idx` in the given list
(ft_ranking.py lines 156–158): whole columns are masked out. -/
def maskCols (C : CMat) (idxs : List ℕ) : CMat where
  nrows := C.nrows
  ncols := C.ncols
  entry := fun r c => if c ∈ idxs then none else C.entry r c

/-- The per-round-constant data of `select_best_tracks`: the exp / sqrt
abstractions, the reprojection-error table and rank mapping computed once
from the original `C` (ft_ranking.py line 144), and `T = np.arange(C.shape[1])`. -/
structure SelectCtx where
  expf : ℚ → ℚ
  sqrtf : ℚ → ℚ
  Rrep : ℕ → ℕ → Option ℚ
  rank : ℕ → ℕ
  Tlist : List ℕ

/-- The working matrix of one round (ft_ranking.py lines 156–158): the copy
with all already-selected tracks (`set(T) - set(remaining_T)`) masked out. -/
def roundCu (ctx : SelectCtx) (st : SelSt) : CMat :=
  maskCols st.updC (ctx.Tlist.filter (fun t => t ∉ st.remaining))

/-- The root camera of one round (ft_ranking.py lines 169–174): the argmax
of the camera weights computed on the working matrix with its connectivity
matrix. -/
def roundRoot (ctx : SelectCtx) (st : SelSt) : ℕ :=
  np_argmax (compute_camera_weights ctx.expf ctx.sqrtf (roundCu ctx st) ctx.Rrep
    (build_connectivity_matrix (roundCu ctx st)))

/-- The tree grown in one round (ft_ranking.py lines 176–199), starting from
`Sk = []`, `Ik = [Croot]`, frontier `[Croot]`.  The fuel `n_cam + 1` is
immaterial: the loop's stop test fires after the first layer (see
`growTreeAux_one_layer`). -/
def roundTree (ctx : SelectCtx) (st : SelSt) : TreeSt :=
  growTreeAux (roundCu ctx st) (build_connectivity_matrix (roundCu ctx st))
    (get_inverted_track_list (roundCu ctx st) ctx.rank)
    (List.range (nCam (roundCu ctx st))) (nCam (roundCu ctx st) + 1)
    ⟨[], [roundRoot ctx st], [roundRoot ctx st]⟩

/-- One round `k` of `select_best_tracks` (ft_ranking.py lines 156–203):
mask the already-selected tracks out of the working copy, rebuild the
connectivity matrix, the inverted ranked-track index and the camera weights,
pick the root camera, grow the tree, then remove the round's selection from
the candidate pool and append it to `S`. -/
def selectRound (ctx : SelectCtx) (st : SelSt) : SelSt :=
  { callerC := st.callerC
    updC := roundCu ctx st
    remaining := st.remaining.filter (fun t => t ∉ (roundTree ctx st).Sk)
    S := st.S ++ (roundTree ctx st).Sk }

/-- The outer `while k < K and len(S) < len(T)` loop (ft_ranking.py line
153), fuel-indexed: `none` means the fuel ran out with the loop still
running.  The development proves `K` units of fuel always suffice, which is
exactly the claim that the loop terminates within `K` rounds. -/
def selectLoopAux (ctx : SelectCtx) (K : ℕ) : ℕ → ℕ → SelSt → Option SelSt
  | fuel, k, st =>
    if k < K ∧ st.S.length < ctx.Tlist.length then
      match fuel with
      | 0 => none
      | fuel' + 1 => selectLoopAux ctx K fuel' (k + 1) (selectRound ctx st)
    else some st

/-- The context built by `select_best_tracks` before its loop (ft_ranking.py
lines 141–151). -/
def mkSelectCtx (expf sqrtf : ℚ → ℚ) (errf : ℕ → ℕ → ℚ) (C : CMat) : SelectCtx :=
  { expf := expf
    sqrtf := sqrtf
    Rrep := (order_tracks C errf).2
    rank := (order_tracks C errf).1
    Tlist := List.range C.ncols }

/-- The loop state on entry: `updated_C = C.copy()`, `remaining_T =
np.arange(C.shape[1])`, `S = []`. -/
def selectInit (C : CMat) : SelSt :=
  { callerC := C, updC := C, remaining := List.range C.ncols, S := [] }

/-- `select_best_tracks` (ft_ranking.py lines 130–210), final state. -/
def select_best_tracks_state (expf sqrtf : ℚ → ℚ) (errf : ℕ → ℕ → ℚ)
    (C : CMat) (K : ℕ) : SelSt :=
  (selectLoopAux (mkSelectCtx expf sqrtf errf C) K K 0 (selectInit C)).getD (selectInit C)

/-- `select_best_tracks` returns `S`, the list of selected track ids in
selection order. -/
def select_best_tracks (expf sqrtf : ℚ → ℚ) (errf : ℕ → ℕ → ℚ)
    (C : CMat) (K : ℕ) : List ℕ :=
  (select_best_tracks_state expf sqrtf errf C K).S

lemma selectLoopAux_isSome (ctx : SelectCtx) (K : ℕ) :
    ∀ fuel k st, K ≤ k + fuel → (selectLoopAux ctx K fuel k st).isSome = true := by
  intro fuel
  induction fuel with
  | zero =>
    intro k st h
    rw [selectLoopAux, if_neg (by rintro ⟨h1, _⟩; omega)]
    rfl
  | succ fuel ih =>
    intro k st h
    rw [selectLoopAux]
    by_cases hc : k < K ∧ st.S.length < ctx.Tlist.length
    · rw [if_pos hc]
      exact ih (k + 1) (selectRound ctx st) (by omega)
    · rw [if_neg hc]
      rfl

/-- C8: the outer selection loop terminates within `K` rounds: `K` units of
fuel always produce a result (`k` is incremented every round and the loop
exits as soon as `k < K` fails, whether or not any round contributed tracks
to `S`). -/
theorem select_best_tracks_terminates (expf sqrtf : ℚ → ℚ) (errf : ℕ → ℕ → ℚ)
    (C : CMat) (K : ℕ) (h : 0 < nCam C) :
    (selectLoopAux (mkSelectCtx expf sqrtf errf C) K K 0 (selectInit C)).isSome = true :=
  selectLoopAux_isSome _ K K 0 _ (by omega)

theorem select_best_tracks_terminates_witness :
    0 < nCam Cex3 ∧
    (selectLoopAux (mkSelectCtx expf0 sqrtf0 errf0 Cex3) 2 2 0 (selectInit Cex3)).isSome = true :=
  ⟨by decide, select_best_tracks_terminates expf0 sqrtf0 errf0 Cex3 2 (by decide)⟩

lemma selectRound_callerC (ctx : SelectCtx) (st : SelSt) :
    (selectRound ctx st).callerC = st.callerC := rfl

lemma selectLoopAux_callerC (ctx : SelectCtx) (K : ℕ) :
    ∀ fuel k st st', selectLoopAux ctx K fuel k st = some st' →
      st'.callerC = st.callerC := by
  intro fuel
  induction fuel with
  | zero =>
    intro k st st' h
    rw [selectLoopAux] at h
    by_cases hc : k < K ∧ st.S.length < ctx.Tlist.length
    · rw [if_pos hc] at h
      exact absurd h (by simp)
    · rw [if_neg hc] at h
      exact (Option.some.injEq .. ▸ h : st = st') ▸ rfl
  | succ fuel ih =>
    intro k st st' h
    rw [selectLoopAux] at h
    by_cases hc : k < K ∧ st.S.length < ctx.Tlist.length
    · rw [if_pos hc] at h
      exact (ih (k + 1) (selectRound ctx st) st' h).trans (selectRound_callerC ctx st)
    · rw [if_neg hc] at h
      exact (Option.some.injEq .. ▸ h : st = st') ▸ rfl

/-- C9: `select_best_tracks` never writes the caller's matrix: every round
works on the copy taken at ft_ranking.py line 151 (`updated_C = C.copy()`)
and masks columns of that copy only, so the caller's `C` — and hence any
connectivity matrix later built from it — is unchanged when the call
returns.  (`build_connectivity_matrix` itself only reads `C`; its embedding
is a pure function of `C`.) -/
theorem select_best_tracks_preserves_C (expf sqrtf : ℚ → ℚ) (errf : ℕ → ℕ → ℚ)
    (C : CMat) (K : ℕ) :
    (select_best_tracks_state expf sqrtf errf C K).callerC = C ∧
    build_connectivity_matrix (select_best_tracks_state expf sqrtf errf C K).callerC =
      build_connectivity_matrix C := by
  have h : (select_best_tracks_state expf sqrtf errf C K).callerC = C := by
    unfold select_best_tracks_state
    rcases hres : selectLoopAux (mkSelectCtx expf sqrtf errf C) K K 0 (selectInit C) with _ | st'
    · rfl
    · simpa using selectLoopAux_callerC _ K K 0 (selectInit C) st' hres
  exact ⟨h, by rw [h]⟩

/-- The invariant carried through the tree growth: `Sk` is duplicate-free and
all of its members satisfy `Q`. -/
def SkInv (Q : ℕ → Prop) (st : TreeSt) : Prop :=
  st.Sk.Nodup ∧ ∀ t ∈ st.Sk, Q t

lemma procTrack_SkInv {Q : ℕ → Prop} {Cu : CMat} {A : ℕ → ℕ → ℕ} {c t : ℕ} {st : TreeSt}
    (hQ : Q t) (h : SkInv Q st) : SkInv Q (procTrack Cu A c t st) := by
  unfold procTrack
  by_cases h1 : t ∈ st.Sk
  · rw [if_pos h1]
    exact h
  · rw [if_neg h1]
    split_ifs with h2
    · constructor
      · simp only [List.nodup_append, List.nodup_cons, List.not_mem_nil, not_false_iff,
          List.nodup_nil, and_true, true_and]
        exact ⟨h.1, by simpa [List.disjoint_singleton] using h1⟩
      · intro u hu
        rcases List.mem_append.mp hu with hu | hu
        · exact h.2 u hu
        · rw [List.mem_singleton.mp hu]
          exact hQ
    · exact h

lemma foldl_procTrack_SkInv {Q : ℕ → Prop} {Cu : CMat} {A : ℕ → ℕ → ℕ} {c : ℕ}
    (ts : List ℕ) (hts : ∀ t ∈ ts, Q t) :
    ∀ st, SkInv Q st → SkInv Q (ts.foldl (fun s2 t => procTrack Cu A c t s2) st) := by
  induction ts with
  | nil => intro st h; exact h
  | cons t ts ih =>
    intro st h
    rw [List.foldl_cons]
    exact ih (fun u hu => hts u (List.mem_cons_of_mem _ hu)) _
      (procTrack_SkInv (hts t (List.mem_cons_self ..)) h)

lemma foldl_procCam_SkInv {Q : ℕ → Prop} {Cu : CMat} {A : ℕ → ℕ → ℕ} {inv : ℕ → List ℕ}
    (hinv : ∀ c, ∀ t ∈ inv c, Q t) (cams : List ℕ) :
    ∀ st, SkInv Q st →
      SkInv Q (cams.foldl (fun s c => (inv c).foldl (fun s2 t => procTrack Cu A c t s2) s) st) := by
  induction cams with
  | nil => intro st h; exact h
  | cons c cams ih =>
    intro st h
    rw [List.foldl_cons]
    exact ih _ (foldl_procTrack_SkInv (inv c) (hinv c) st h)

lemma treeLayer_SkInv {Q : ℕ → Prop} {Cu : CMat} {A : ℕ → ℕ → ℕ} {inv : ℕ → List ℕ}
    (hinv : ∀ c, ∀ t ∈ inv c, Q t) (st : TreeSt) (h : SkInv Q st) :
    SkInv Q (treeLayer Cu A inv st) := by
  unfold treeLayer
  exact foldl_procCam_SkInv hinv st.last { Sk := st.Sk, Ik := st.Ik, last := [] } h

lemma growTreeAux_SkInv {Q : ℕ → Prop} {Cu : CMat} {A : ℕ → ℕ → ℕ} {inv : ℕ → List ℕ}
    {V : List ℕ} (hinv : ∀ c, ∀ t ∈ inv c, Q t) :
    ∀ fuel st, SkInv Q st → SkInv Q (growTreeAux Cu A inv V fuel st) := by
  intro fuel
  induction fuel with
  | zero => intro st h; exact h
  | succ fuel ih =>
    intro st h
    rw [growTreeAux]
    split_ifs with hstop
    · exact treeLayer_SkInv hinv st h
    · exact ih _ (treeLayer_SkInv hinv st h)

/-- The invariant carried through the outer loop: the working copy keeps the
track-column count, `S` is duplicate-free, all its members are genuine track
columns, and none of them is still in the candidate pool. -/
def SelInv (N : ℕ) (st : SelSt) : Prop :=
  st.updC.ncols = N ∧ st.S.Nodup ∧ (∀ t ∈ st.S, t < N) ∧ (∀ t ∈ st.S, t ∉ st.remaining)

lemma selectRound_SelInv (ctx : SelectCtx) (N : ℕ) (hT : ctx.Tlist = List.range N)
    (st : SelSt) (h : SelInv N st) : SelInv N (selectRound ctx st) := by
  obtain ⟨hups, hnd, hlt, hrem⟩ := h
  have hCuN : (roundCu ctx st).ncols = N := hups
  have hsk : SkInv (fun t => t < (roundCu ctx st).ncols ∧ ∃ c, obs (roundCu ctx st) c t = true)
      (roundTree ctx st) := by
    refine growTreeAux_SkInv ?_ _ _ ⟨List.nodup_nil, by simp⟩
    intro c t ht
    obtain ⟨h1, h2⟩ := mem_inverted ht
    exact ⟨h1, c, h2⟩
  have hmasked : ∀ t ∈ st.S, ∀ c, obs (roundCu ctx st) c t = false := by
    intro t ht c
    have htmem : t ∈ ctx.Tlist.filter (fun x => decide (x ∉ st.remaining)) := by
      refine List.mem_filter.mpr ⟨?_, by simpa using hrem t ht⟩
      rw [hT]
      exact List.mem_range.mpr (hlt t ht)
    simp only [roundCu, obs, maskCols]
    rw [if_pos (by simpa using htmem)]
    rfl
  have hdisj : ∀ t ∈ st.S, t ∉ (roundTree ctx st).Sk := by
    intro t ht hcontra
    obtain ⟨_, c, hobs⟩ := hsk.2 t hcontra
    rw [hmasked t ht c] at hobs
    exact Bool.false_ne_true hobs
  refine ⟨hCuN, ?_, ?_, ?_⟩
  · show (st.S ++ (roundTree ctx st).Sk).Nodup
    rw [List.nodup_append]
    exact ⟨hnd, hsk.1, fun t ht => hdisj t ht⟩
  · intro t ht
    rcases List.mem_append.mp ht with ht | ht
    · exact hlt t ht
    · exact hCuN ▸ (hsk.2 t ht).1
  · intro t ht hmem
    have hmem' := List.mem_filter.mp hmem
    rcases List.mem_append.mp ht with ht | ht
    · exact hrem t ht hmem'.1
    · exact (by simpa using hmem'.2 : t ∉ (roundTree ctx st).Sk) ht

lemma selectLoopAux_SelInv (ctx : SelectCtx) (N K : ℕ) (hT : ctx.Tlist = List.range N) :
    ∀ fuel k st st', selectLoopAux ctx K fuel k st = some st' →
      SelInv N st → SelInv N st' := by
  intro fuel
  induction fuel with
  | zero =>
    intro k st st' h hinv
    rw [selectLoopAux] at h
    by_cases hc : k < K ∧ st.S.length < ctx.Tlist.length
    · rw [if_pos hc] at h
      exact absurd h (by simp)
    · rw [if_neg hc] at h
      exact (Option.some.injEq .. ▸ h : st = st') ▸ hinv
  | succ fuel ih =>
    intro k st st' h hinv
    rw [selectLoopAux] at h
    by_cases hc : k < K ∧ st.S.length < ctx.Tlist.length
    · rw [if_pos hc] at h
      exact ih (k + 1) (selectRound ctx st) st' h (selectRound_SelInv ctx N hT st hinv)
    · rw [if_neg hc] at h
      exact (Option.some.injEq .. ▸ h : st = st') ▸ hinv

/-- C7: across all rounds, no track id is ever selected twice — the returned
`S` is duplicate-free — and `S` has at most as many elements as `C` has
track columns.  (Selected tracks are removed from the candidate pool and
masked out of the working copy at the start of every later round, so they
can never re-enter a round's inverted track lists.) -/
theorem select_best_tracks_nodup (expf sqrtf : ℚ → ℚ) (errf : ℕ → ℕ → ℚ)
    (C : CMat) (K : ℕ) (h : 0 < nCam C) :
    (select_best_tracks expf sqrtf errf C K).Nodup ∧
    (select_best_tracks expf sqrtf errf C K).length ≤ C.ncols := by
  unfold select_best_tracks select_best_tracks_state
  rcases hres : selectLoopAux (mkSelectCtx expf sqrtf errf C) K K 0 (selectInit C) with _ | st'
  · constructor
    · exact List.nodup_nil
    · simp [selectInit]
  · have hinv : SelInv C.ncols st' :=
      selectLoopAux_SelInv (mkSelectCtx expf sqrtf errf C) C.ncols K rfl K 0
        (selectInit C) st' hres ⟨rfl, List.nodup_nil, by simp [selectInit], by simp [selectInit]⟩
    obtain ⟨_, hnd, hlt, _⟩ := hinv
    simp only [Option.getD_some]
    refine ⟨hnd, ?_⟩
    have hsub : st'.S ⊆ List.range C.ncols := fun t ht => List.mem_range.mpr (hlt t ht)
    simpa using (List.subperm_of_subset hnd hsub).length_le

theorem select_best_tracks_nodup_witness :
    0 < nCam Cex3 ∧
    (select_best_tracks expf0 sqrtf0 errf0 Cex3 2).Nodup ∧
    (select_best_tracks expf0 sqrtf0 errf0 Cex3 2).length ≤ Cex3.ncols :=
  ⟨by decide, select_best_tracks_nodup expf0 sqrtf0 errf0 Cex3 2 (by decide)⟩

/-- A 4-camera (8-row), 3-track path-shaped matrix: track 0 is seen by
cameras {0,1}, track 1 by {1,2}, track 2 by {2,3} — the camera graph is the
path 0 – 1 – 2 – 3. -/
def Cpath : CMat where
  nrows := 8
  ncols := 3
  entry := fun r c =>
    if r < 8 ∧ ((c = 0 ∧ r / 2 ≤ 1) ∨ (c = 1 ∧ 1 ≤ r / 2 ∧ r / 2 ≤ 2) ∨
        (c = 2 ∧ 2 ≤ r / 2 ∧ r / 2 ≤ 3)) then some 1 else none

/-- The value of the inverted ranked-track index computed in round 0 of
`select_best_tracks` at `Cpath` (proved equal to it in
`inverted_Cpath_eq`): camera 0 sees track 0, camera 1 tracks 0 and 1,
camera 2 tracks 1 and 2, camera 3 track 2, each list in rank order. -/
def invEx : ℕ → List ℕ :=
  fun c => if c = 0 then [0] else if c = 1 then [0, 1]
    else if c = 2 then [1, 2] else if c = 3 then [2] else []

lemma roundCu_Cpath :
    roundCu (mkSelectCtx expf0 sqrtf0 errf0 Cpath) (selectInit Cpath) = maskCols Cpath [] := by
  show maskCols Cpath ((mkSelectCtx expf0 sqrtf0 errf0 Cpath).Tlist.filter
    (fun t => t ∉ (selectInit Cpath).remaining)) = maskCols Cpath []
  rw [show (mkSelectCtx expf0 sqrtf0 errf0 Cpath).Tlist.filter
    (fun t => t ∉ (selectInit Cpath).remaining) = [] from by decide]

lemma rank_Cpath_proj :
    (mkSelectCtx expf0 sqrtf0 errf0 Cpath).rank = ranked_track_indices Cpath errf0 := rfl

lemma Rrep_Cpath_proj :
    (mkSelectCtx expf0 sqrtf0 errf0 Cpath).Rrep = reprojection_error_from_C Cpath errf0 := rfl

lemma trackCost_Cpath : ∀ t, t < 3 → trackCost Cpath errf0 t = some 0 := by
  have h0 : (List.range (nCam Cpath)).filterMap
      (fun i => reprojection_error_from_C Cpath errf0 i 0) = [0, 0] := by decide
  have h1 : (List.range (nCam Cpath)).filterMap
      (fun i => reprojection_error_from_C Cpath errf0 i 1) = [0, 0] := by decide
  have h2 : (List.range (nCam Cpath)).filterMap
      (fun i => reprojection_error_from_C Cpath errf0 i 2) = [0, 0] := by decide
  intro t ht
  interval_cases t <;>
    · unfold trackCost np_nanmean_col
      first
        | (rw [h0]; norm_num)
        | (rw [h1]; norm_num)
        | (rw [h2]; norm_num)

lemma trackBetter_Cpath : ∀ u, u < 3 → ∀ t, t < 3 →
    trackBetter Cpath errf0 u t = decide (u < t) := by
  have hlen : ∀ x, x < 3 → trackLen Cpath x = 2 := by decide
  intro u hu t ht
  unfold trackBetter
  rw [hlen u hu, hlen t ht, trackCost_Cpath u hu, trackCost_Cpath t ht]
  norm_num [costBetter]

lemma rank_Cpath : ∀ t, t < 3 → ranked_track_indices Cpath errf0 t = t := by
  intro t ht
  unfold ranked_track_indices
  rw [show List.range Cpath.ncols = [0, 1, 2] from by decide]
  simp only [List.countP_cons, List.countP_nil]
  rw [trackBetter_Cpath 0 (by omega) t ht, trackBetter_Cpath 1 (by omega) t ht,
    trackBetter_Cpath 2 (by omega) t ht]
  interval_cases t <;> simp

lemma inverted_Cpath_eq :
    get_inverted_track_list (maskCols Cpath []) (ranked_track_indices Cpath errf0) = invEx := by
  have hr0 := rank_Cpath 0 (by omega)
  have hr1 := rank_Cpath 1 (by omega)
  have hr2 := rank_Cpath 2 (by omega)
  funext c
  unfold get_inverted_track_list invEx
  by_cases h0 : c = 0
  · subst h0
    rw [show (List.range (maskCols Cpath []).ncols).filter
      (fun t => obs (maskCols Cpath []) 0 t) = [0] from by decide]
    simp [sortByRank, insertByRank]
  by_cases h1 : c = 1
  · subst h1
    rw [show (List.range (maskCols Cpath []).ncols).filter
      (fun t => obs (maskCols Cpath []) 1 t) = [0, 1] from by decide]
    simp only [sortByRank, List.foldr_cons, List.foldr_nil, insertByRank]
    rw [hr0, hr1]
    norm_num
  by_cases h2 : c = 2
  · subst h2
    rw [show (List.range (maskCols Cpath []).ncols).filter
      (fun t => obs (maskCols Cpath []) 2 t) = [1, 2] from by decide]
    simp only [sortByRank, List.foldr_cons, List.foldr_nil, insertByRank]
    rw [hr1, hr2]
    norm_num
  by_cases h3 : c = 3
  · subst h3
    rw [show (List.range (maskCols Cpath []).ncols).filter
      (fun t => obs (maskCols Cpath []) 3 t) = [2] from by decide]
    simp [sortByRank, insertByRank]
  · have hc4 : 4 ≤ c := by omega
    rw [List.filter_eq_nil_iff.mpr ?_, if_neg h0, if_neg h1, if_neg h2, if_neg h3]
    · rfl
    · intro t _
      simp only [obs, maskCols, List.not_mem_nil, if_false, Cpath, decide_eq_true_eq]
      rw [if_neg (by omega)]
      simp

lemma camCost_Cpath_isSome : ∀ i, i < 4 →
    (camCost sqrtf0 (maskCols Cpath []) (reprojection_error_from_C Cpath errf0) i).isSome
      = true := by
  decide

lemma weights_Cpath :
    compute_camera_weights expf0 sqrtf0 (maskCols Cpath [])
      (reprojection_error_from_C Cpath errf0)
      (build_connectivity_matrix (maskCols Cpath [])) =
    [some (((1 : ℕ) : ℚ) + 1), some (((2 : ℕ) : ℚ) + 1),
     some (((2 : ℕ) : ℚ) + 1), some (((1 : ℕ) : ℚ) + 1)] := by
  obtain ⟨c0, hc0⟩ := Option.isSome_iff_exists.mp (camCost_Cpath_isSome 0 (by omega))
  obtain ⟨c1, hc1⟩ := Option.isSome_iff_exists.mp (camCost_Cpath_isSome 1 (by omega))
  obtain ⟨c2, hc2⟩ := Option.isSome_iff_exists.mp (camCost_Cpath_isSome 2 (by omega))
  obtain ⟨c3, hc3⟩ := Option.isSome_iff_exists.mp (camCost_Cpath_isSome 3 (by omega))
  have hw0 : camWeight expf0 sqrtf0 (maskCols Cpath []) (reprojection_error_from_C Cpath errf0)
      (build_connectivity_matrix (maskCols Cpath [])) 0 = some (((1 : ℕ) : ℚ) + 1) := by
    unfold camWeight
    rw [show camDegree (maskCols Cpath []) (build_connectivity_matrix (maskCols Cpath [])) 0
      = 1 from by decide, if_pos (by omega), hc0]
    simp [expf0]
  have hw1 : camWeight expf0 sqrtf0 (maskCols Cpath []) (reprojection_error_from_C Cpath errf0)
      (build_connectivity_matrix (maskCols Cpath [])) 1 = some (((2 : ℕ) : ℚ) + 1) := by
    unfold camWeight
    rw [show camDegree (maskCols Cpath []) (build_connectivity_matrix (maskCols Cpath [])) 1
      = 2 from by decide, if_pos (by omega), hc1]
    simp [expf0]
  have hw2 : camWeight expf0 sqrtf0 (maskCols Cpath []) (reprojection_error_from_C Cpath errf0)
      (build_connectivity_matrix (maskCols Cpath [])) 2 = some (((2 : ℕ) : ℚ) + 1) := by
    unfold camWeight
    rw [show camDegree (maskCols Cpath []) (build_connectivity_matrix (maskCols Cpath [])) 2
      = 2 from by decide, if_pos (by omega), hc2]
    simp [expf0]
  have hw3 : camWeight expf0 sqrtf0 (maskCols Cpath []) (reprojection_error_from_C Cpath errf0)
      (build_connectivity_matrix (maskCols Cpath [])) 3 = some (((1 : ℕ) : ℚ) + 1) := by
    unfold camWeight
    rw [show camDegree (maskCols Cpath []) (build_connectivity_matrix (maskCols Cpath [])) 3
      = 1 from by decide, if_pos (by omega), hc3]
    simp [expf0]
  unfold compute_camera_weights
  rw [show List.range (nCam (maskCols Cpath [])) = [0, 1, 2, 3] from by decide]
  simp only [List.map_cons, List.map_nil]
  rw [hw0, hw1, hw2, hw3]

lemma root_Cpath :
    roundRoot (mkSelectCtx expf0 sqrtf0 errf0 Cpath) (selectInit Cpath) = 1 := by
  unfold roundRoot
  rw [roundCu_Cpath, Rrep_Cpath_proj,
    show (mkSelectCtx expf0 sqrtf0 errf0 Cpath).expf = expf0 from rfl,
    show (mkSelectCtx expf0 sqrtf0 errf0 Cpath).sqrtf = sqrtf0 from rfl,
    weights_Cpath]
  norm_num [np_argmax, np_argmax_go]

/-- C1 (code bug): at the path input `Cpath`, round 0 of
`select_best_tracks` takes root camera 1 and its tree growth stops after a
single breadth-first layer, in the state `Sk = [0, 1]`, `Ik = [1, 0, 2]`,
frontier `[0, 2]`: the frontier is non-empty and camera 3 is still outside
`Ik` — the spec says a further layer must then be processed, and processing
one more layer would indeed select track 2 and add camera 3 — yet the loop
stops, because line 197 of ft_ranking.py tests `set(Ik) - set(V)` (always
empty, since `Ik ⊆ V = range(n_cam)`) where the described behaviour requires
`set(V) - set(Ik)`.  The theorem evaluates the embedded round-0 computation:
`roundTree` (which runs the loop with ample fuel `n_cam + 1`) already equals
the one-layer state. -/
theorem select_growth_stops_after_one_layer :
    roundRoot (mkSelectCtx expf0 sqrtf0 errf0 Cpath) (selectInit Cpath) = 1 ∧
    roundTree (mkSelectCtx expf0 sqrtf0 errf0 Cpath) (selectInit Cpath) =
      ⟨[0, 1], [1, 0, 2], [0, 2]⟩ ∧
    (([0, 2] : List ℕ) ≠ [] ∧ 3 ∉ ([1, 0, 2] : List ℕ)) ∧
    3 ∈ (treeLayer (roundCu (mkSelectCtx expf0 sqrtf0 errf0 Cpath) (selectInit Cpath))
      (build_connectivity_matrix (roundCu (mkSelectCtx expf0 sqrtf0 errf0 Cpath)
        (selectInit Cpath)))
      (get_inverted_track_list (roundCu (mkSelectCtx expf0 sqrtf0 errf0 Cpath)
        (selectInit Cpath)) (mkSelectCtx expf0 sqrtf0 errf0 Cpath).rank)
      ⟨[0, 1], [1, 0, 2], [0, 2]⟩).Ik := by
  refine ⟨root_Cpath, ?_, by decide, ?_⟩
  · unfold roundTree
    rw [roundCu_Cpath, rank_Cpath_proj, inverted_Cpath_eq, root_Cpath]
    decide
  · rw [roundCu_Cpath, rank_Cpath_proj, inverted_Cpath_eq]
    decide

/-- One row of the `pairwise_matches` array of ft_sat.py (shape N × 4):
keypoint index and image index on each side of the correspondence. -/
structure PMatch where
  kp_i : ℕ
  kp_j : ℕ
  im_i : ℕ
  im_j : ℕ
deriving DecidableEq

/-- The planar distance of one correspondence (ft_sat.py lines 136–140):
`np.linalg.norm(pt_i_utm - pt_j_utm)` where the endpoint coordinates are
looked up in the stacked `features_utm` array (`futm image kp`).  The
Euclidean norm is irrational in general and is abstracted as `normf` applied
to the coordinate difference. -/
def matchDist (normf : ℚ × ℚ → ℚ) (futm : ℕ → ℕ → ℚ × ℚ) (m : PMatch) : ℚ :=
  normf ((futm m.im_i m.kp_i).1 - (futm m.im_j m.kp_j).1,
         (futm m.im_i m.kp_i).2 - (futm m.im_j m.kp_j).2)

/-- `filter_pairwise_matches_inconsistent_utm_coords` (ft_sat.py lines
127–153).  `elbowf` models `ba_core.get_elbow_value(·, percentile_value=95)`
(in `bundle_adjust/ba_core.py`, not under src/; `none` models a raised
exception — `np.percentile` raises on an empty array).  The threshold is the
elbow value plus the 10-metre margin (line 142) and the survivors are the
rows with distance strictly below it (line 143).  The overall result is
`none` when the call raises: either inside `elbowf`, or at line 148, where
`percent = (float(removed)/n_init) * 100.` divides by `n_init = 0` whenever
the input list is empty. -/
def filter_pairwise_matches_inconsistent_utm_coords
    (normf : ℚ × ℚ → ℚ) (elbowf : List ℚ → Option ℚ)
    (futm : ℕ → ℕ → ℚ × ℚ) (pm : List PMatch) : Option (List PMatch) :=
  (elbowf (pm.map (matchDist normf futm))).bind (fun e =>
    if pm.length = 0 then none
    else some (pm.filter (fun m => matchDist normf futm m < e + 10)))

/-- C3 amended: on the empty input the function raises instead of returning:
for every model of `get_elbow_value`, the result is `none` — if the elbow
computation survives the empty array, the percentage computation at line 148
divides by zero. -/
theorem filter_empty_raises (normf : ℚ × ℚ → ℚ) (elbowf : List ℚ → Option ℚ)
    (futm : ℕ → ℕ → ℚ × ℚ) :
    filter_pairwise_matches_inconsistent_utm_coords normf elbowf futm [] = none := by
  unfold filter_pairwise_matches_inconsistent_utm_coords
  rcases h : elbowf (List.map (matchDist normf futm) []) with _ | e <;> simp [h]

/-- A stand-in for the Euclidean norm of the difference vector, used at
concrete inputs where its value is irrelevant. -/
def normf0 : ℚ × ℚ → ℚ := fun p => p.1 + p.2

/-- A stand-in elbow model returning the threshold base 0 on every input —
in particular a *defined* value on the empty distance array, showing the
failure on empty input is not contingent on `np.percentile` raising. -/
def elbowf0 : List ℚ → Option ℚ := fun _ => some 0

/-- A stand-in per-image keypoint UTM table placing every keypoint at the
origin. -/
def futm0 : ℕ → ℕ → ℚ × ℚ := fun _ _ => (0, 0)

/-- C3 counterexample: called on the empty list, the function does not
return the empty list unchanged — it raises (embedded as `none`), even under
an elbow model that yields a defined threshold on the empty array. -/
theorem filter_empty_counterexample :
    filter_pairwise_matches_inconsistent_utm_coords normf0 elbowf0 futm0 [] = none ∧
    (none : Option (List PMatch)) ≠ some [] := by
  exact ⟨rfl, by simp⟩

/-- C10: whenever the filter returns, the returned list is a subsequence of
the input: the boolean-mask selection `pairwise_matches[all_utm_distances <
utm_thr]` keeps surviving rows unmodified and in their original relative
order, and adds nothing. -/
theorem filter_pairwise_matches_sublist (normf : ℚ × ℚ → ℚ)
    (elbowf : List ℚ → Option ℚ) (futm : ℕ → ℕ → ℚ × ℚ) (pm out : List PMatch)
    (hne : pm ≠ [])
    (h : filter_pairwise_matches_inconsistent_utm_coords normf elbowf futm pm = some out) :
    out.Sublist pm := by
  unfold filter_pairwise_matches_inconsistent_utm_coords at h
  rcases he : elbowf (pm.map (matchDist normf futm)) with _ | e
  · rw [he] at h
    exact absurd h (by simp)
  · rw [he] at h
    simp only [Option.some_bind] at h
    by_cases hl : pm.length = 0
    · rw [if_pos hl] at h
      exact absurd h (by simp)
    · rw [if_neg hl] at h
      have hout : pm.filter (fun m => decide (matchDist normf futm m < e + 10)) = out :=
        Option.some.injEq .. ▸ h
      rw [← hout]
      exact List.filter_sublist pm

/-- A concrete two-row pairwise-match list. -/
def pm0 : List PMatch := [⟨0, 0, 0, 1⟩, ⟨1, 1, 0, 1⟩]

theorem filter_pairwise_matches_sublist_witness :
    pm0 ≠ [] ∧ List.Sublist pm0 pm0 := by
  refine ⟨by decide, filter_pairwise_matches_sublist normf0 elbowf0 futm0 pm0 pm0 (by decide) ?_⟩
  unfold filter_pairwise_matches_inconsistent_utm_coords
  norm_num [pm0, elbowf0, matchDist, normf0, futm0, List.filter]

end SatBA
